import Mathlib

/-!
# Verification of the autobahn consensus core against its specification

Shallow embedding of the repository's leader election (`hotstuff/src/leader.rs`),
vote aggregation (specified in §4.2 of the design document; the aggregator source
is exercised by `sailfish/src/tests/aggregator_tests.rs`), worker batch-request
helper (`worker/src/helper.rs`) and node channel setup (`node/src/main.rs`).

Machine integers of the source (`Round = u64`, `usize`) are modelled as `Nat`;
the round-type bound `2^64` appears explicitly where a claim mentions overflow.
Public keys are fixed-length byte strings ordered bytewise in the source; that
order is a linear order on keys, modelled here by `Nat` with its numeric order.
-/

/-- Public identity of an authority (fixed-length key bytes, ordered bytewise in
the source; any linear order is faithful, we use `Nat`). -/
abbrev PubKey := Nat

/-- Content digest of a batch or header (fixed-length hash). -/
abbrev Digest := Nat

/-- Round number (`u64` in the source). -/
abbrev Round := Nat

/-- Index of a worker under a primary (`WorkerId` in the source). -/
abbrev WorkerId := Nat

/-- A network address. -/
abbrev Address := Nat

/-- Raw batch bytes. -/
abbrev Bytes := List Nat

/-- Modelled from the spec: the addresses the committee registers for one
(authority, worker id) pair; `helper.rs` reads the `worker_to_worker` field.
(The `config` crate is not under `src/`.) -/
structure WorkerAddresses where
  worker_to_worker : Address
deriving DecidableEq, Repr

/-- Modelled from the spec (§2, §3 data model): static committee for one epoch.
Key attributes per the spec table: ordered set of authority public keys,
per-authority per-worker-id addresses, total size `N = 3f+1`; invariant: every
authority has a unique, comparably-ordered public key.
(The `config` crate is not under `src/`.) -/
structure Committee where
  /-- The authority public keys (keys of the `authorities` map in the source). -/
  authorities : List PubKey
  /-- Per-(authority, worker id) registered addresses. -/
  workers : List ((PubKey × WorkerId) × WorkerAddresses)
  /-- The fault bound: the committee has `3f+1` members. -/
  f : Nat
  size_eq : authorities.length = 3 * f + 1
  keys_nodup : authorities.Nodup

/-- `Committee::size()`: the number of authorities. -/
def Committee.size (c : Committee) : Nat := c.authorities.length

/-- Modelled from the spec (§4.2): the quorum threshold, `2f+1` out of `3f+1`. -/
def quorumThreshold (c : Committee) : Nat := 2 * c.f + 1

/-- `let mut keys = ...collect(); keys.sort();` in `RRLeaderElector::get_leader`. -/
def sortedKeys (c : Committee) : List PubKey :=
  c.authorities.insertionSort (· ≤ ·)

/-- `RRLeaderElector::get_leader` (`hotstuff/src/leader.rs`): sort the authority
keys and index at `round % committee.size()`. The in-bounds side goal mirrors
the fact that `keys[..]` cannot panic once the committee is non-empty, which
the spec's `N = 3f+1` committee invariant guarantees. -/
def get_leader (c : Committee) (round : Round) : PubKey :=
  (sortedKeys c).get ⟨round % c.size, by
    have h : (sortedKeys c).length = c.authorities.length :=
      List.length_insertionSort _ _
    rw [h]
    have hpos : 0 < c.authorities.length := by rw [c.size_eq]; omega
    exact Nat.mod_lt _ hpos⟩

/-- A signature share, modelled symbolically: the pair of the signing key and
the signed digest (the spec's `SignatureService` signs digests and a signature
verifies exactly under the signer's public key over that digest). -/
structure Sig where
  signer : PubKey
  message : Digest
deriving DecidableEq, Repr

/-- Signing a digest with an authority's key (symbolic crypto model). -/
def mkSig (k : PubKey) (d : Digest) : Sig := ⟨k, d⟩

/-- Modelled from the spec (§3): one authority's endorsement of a header —
header digest, round, voter identity, signature over the digest.
(The sailfish aggregator/message source is not under `src/`; the shape matches
`AcceptVote::new_from_key` in `sailfish/src/tests/aggregator_tests.rs`.) -/
structure AcceptVote where
  digest : Digest
  round : Round
  author : PubKey
  sig : Sig
deriving DecidableEq, Repr

/-- `AcceptVote::new_from_key`: a correctly signed vote by `k` on `(rd, dg)`. -/
def AcceptVote.new_from_key (dg : Digest) (rd : Round) (k : PubKey) : AcceptVote :=
  ⟨dg, rd, k, mkSig k dg⟩

/-- Modelled from the spec (§4.2): a vote's signature verifies under the claimed
voter's public key using the committee's registered key. -/
def voteVerify (c : Committee) (v : AcceptVote) : Bool :=
  decide (v.author ∈ c.authorities) && decide (v.sig = mkSig v.author v.digest)

/-- Modelled from the spec (§3): proof that a header received quorum votes —
header digest, round, and the set of contributed (identity, signature) shares. -/
structure Certificate where
  digest : Digest
  round : Round
  votes : List (PubKey × Sig)
deriving DecidableEq, Repr

/-- Modelled from the spec (§3 invariant for Certificate): a certificate is
valid for a committee when it carries signatures of at least `2f+1` distinct
committee authorities, each verifying over the certified digest. -/
def Certificate.verify (c : Committee) (cert : Certificate) : Bool :=
  decide ((cert.votes.map Prod.fst).Nodup) &&
  cert.votes.all (fun p =>
    decide (p.1 ∈ c.authorities) && decide (p.2 = mkSig p.1 cert.digest)) &&
  decide (quorumThreshold c ≤ cert.votes.length)

/-- Modelled from the spec (§4.2): the `add_vote` error taxonomy. -/
inductive AggError where
  | InvalidSignature
  | DuplicateVote
deriving DecidableEq, Repr

/-- Modelled from the spec (§4.2): the vote-side aggregator state — for each
(round, digest) pair, the identities that have contributed a signature share
together with the accumulated signatures, plus which (round, digest) pairs have
already reached quorum (to reject duplicate QC emission). The symmetric
timeout-side map plays no part in the claims and is omitted. -/
structure Aggregator where
  votes_aggregators : List ((Round × Digest) × List (PubKey × Sig))
  produced : List (Round × Digest)
deriving DecidableEq, Repr

/-- `Aggregator::new`: empty state. -/
def Aggregator.empty : Aggregator := ⟨[], []⟩

/-- The recorded (identity, signature) shares for one (round, digest) pair. -/
def getBucket (st : Aggregator) (k : Round × Digest) : List (PubKey × Sig) :=
  match st.votes_aggregators.find? (fun b => decide (b.1 = k)) with
  | some b => b.2
  | none => []

/-- Replace (or create) the share list of one (round, digest) pair. -/
def setBucket (st : Aggregator) (k : Round × Digest)
    (bucket : List (PubKey × Sig)) : Aggregator :=
  if st.votes_aggregators.any (fun b => decide (b.1 = k)) then
    { st with votes_aggregators :=
        st.votes_aggregators.map (fun b => if b.1 = k then (k, bucket) else b) }
  else
    { st with votes_aggregators := (k, bucket) :: st.votes_aggregators }

/-- Modelled from the spec (§4.2), `add_vote`: fail with `InvalidSignature` if
the signature does not verify; fail with `DuplicateVote` if that authority
already voted for a different digest in the same round; no-op returning `none`
if a certificate for this (round, digest) was already produced; otherwise
record the vote and, once the set of distinct voters reaches `2f+1`, combine
the shares into a `Certificate` and return it, returning `none` below quorum. -/
def add_accept_vote (c : Committee) (st : Aggregator) (v : AcceptVote) :
    Except AggError (Option Certificate) × Aggregator :=
  if ¬ voteVerify c v then (Except.error AggError.InvalidSignature, st)
  else if st.votes_aggregators.any (fun b =>
      decide (b.1.1 = v.round) && decide (b.1.2 ≠ v.digest) &&
      b.2.any (fun p => decide (p.1 = v.author))) then
    (Except.error AggError.DuplicateVote, st)
  else if (v.round, v.digest) ∈ st.produced then
    (Except.ok none, st)
  else
    let bucket := getBucket st (v.round, v.digest)
    let bucket' := if bucket.any (fun p => decide (p.1 = v.author)) then bucket
                   else bucket ++ [(v.author, v.sig)]
    let st' := setBucket st (v.round, v.digest) bucket'
    if quorumThreshold c ≤ bucket'.length then
      (Except.ok (some ⟨v.digest, v.round, bucket'⟩),
       { st' with produced := (v.round, v.digest) :: st'.produced })
    else
      (Except.ok none, st')

/-- Feed a list of votes through `add_accept_vote`, collecting each call's
result in order together with the final state. -/
def add_votes (c : Committee) :
    Aggregator → List AcceptVote →
    List (Except AggError (Option Certificate)) × Aggregator
  | st, [] => ([], st)
  | st, v :: rest =>
    let p := add_accept_vote c st v
    let q := add_votes c p.2 rest
    (p.1 :: q.1, q.2)

/-- The signature shares of a list of voters all endorsing digest `dg`. -/
def voteSigs (dg : Digest) (ks : List PubKey) : List (PubKey × Sig) :=
  ks.map (fun k => (k, mkSig k dg))

/-- The aggregator state reached after recording the distinct voters `recorded`
on the single pair `(rd, dg)`, against quorum threshold `q` (proof device for
the aggregator theorems). -/
def mkAggState (rd : Round) (dg : Digest) (recorded : List PubKey) (q : Nat) :
    Aggregator :=
  { votes_aggregators :=
      if recorded.isEmpty then [] else [((rd, dg), voteSigs dg recorded)],
    produced := if q ≤ recorded.length then [(rd, dg)] else [] }

/-- Modelled from the spec: the error `Committee::worker` reports when the
(authority, worker id) pair is absent from the committee (the spec's
`UnknownPeer` condition; the `config` crate is not under `src/`). -/
inductive ConfigError where
  | NotInCommittee
deriving DecidableEq, Repr

/-- Modelled from the spec: look up the addresses the committee registers for
one (authority, worker id) pair (the `config` crate is not under `src/`). -/
def Committee.worker (c : Committee) (origin : PubKey) (id : WorkerId) :
    Except ConfigError WorkerAddresses :=
  match c.workers.find? (fun e => decide (e.1 = (origin, id))) with
  | some e => Except.ok e.2
  | none => Except.error ConfigError.NotInCommittee

/-- A store read failure (the spec treats `Store` as an opaque collaborator with
`read(key) -> Result<Option<Bytes>>`). -/
inductive StoreError where
  | IoError
deriving DecidableEq, Repr

/-- The contents of the opaque store, as the result `store.read` returns for
each digest key. -/
abbrev StoreFn := Digest → Except StoreError (Option Bytes)

/-- One iteration of `Helper::run` (`worker/src/helper.rs`) on a received
`(digests, origin)` request: resolve the requester's worker-to-worker address
(on error, warn and continue — no messages); then for each digest in request
order, read the store and send the raw bytes to that address on a hit, skip
silently on a miss, and log-and-skip on a store error. The returned list is
the sequence of network sends `(address, payload)` the iteration performs. -/
def helperProcess (c : Committee) (id : WorkerId) (store : StoreFn)
    (req : List Digest × PubKey) : List (Address × Bytes) :=
  match c.worker req.2 id with
  | Except.error _ => []
  | Except.ok x =>
    req.1.filterMap (fun d =>
      match store d with
      | Except.ok (some data) => some (x.worker_to_worker, data)
      | Except.ok none => none
      | Except.error _ => none)

/-- The `Helper::run` loop over a (finite prefix of the) request channel: the
sends of each request, concatenated in arrival order. -/
def helperRun (c : Committee) (id : WorkerId) (store : StoreFn)
    (reqs : List (List Digest × PubKey)) : List (Address × Bytes) :=
  (reqs.map (helperProcess c id store)).flatten

/-- `CHANNEL_CAPACITY` (`node/src/main.rs`): the default channel capacity. -/
def CHANNEL_CAPACITY : Nat := 1000

/-- The two `run` subcommands of the node binary. -/
inductive NodeSubcommand where
  | primary
  | worker
deriving DecidableEq, Repr

/-- The capacities of every bounded mpsc channel `run` in `node/src/main.rs`
creates, in creation order: `tx_output`, `tx_sailfish` and `tx_async` always,
plus `tx_new_certificates`, `tx_feedback`, `tx_committer`, `tx_pushdown_cert`
and `tx_request_header_sync` in the `primary` subcommand. -/
def runChannelCapacities : NodeSubcommand → List Nat
  | NodeSubcommand.primary =>
      [CHANNEL_CAPACITY, CHANNEL_CAPACITY, CHANNEL_CAPACITY,
       CHANNEL_CAPACITY, CHANNEL_CAPACITY, CHANNEL_CAPACITY,
       CHANNEL_CAPACITY, CHANNEL_CAPACITY]
  | NodeSubcommand.worker =>
      [CHANNEL_CAPACITY, CHANNEL_CAPACITY, CHANNEL_CAPACITY]

/-- A concrete committee (`f = 1`, four authorities, one registered worker
address) used to instantiate theorems with hypotheses. -/
def cmte : Committee where
  authorities := [0, 1, 2, 3]
  workers := [((0, 0), ⟨42⟩)]
  f := 1
  size_eq := rfl
  keys_nodup := by decide

theorem Committee.size_pos (c : Committee) : 0 < c.size := by
  unfold Committee.size
  rw [c.size_eq]
  omega

theorem sortedKeys_length (c : Committee) : (sortedKeys c).length = c.size :=
  List.length_insertionSort _ _

theorem sortedKeys_perm (c : Committee) :
    List.Perm (sortedKeys c) c.authorities :=
  List.perm_insertionSort _ _

theorem sortedKeys_nodup (c : Committee) : (sortedKeys c).Nodup :=
  (sortedKeys_perm c).nodup_iff.mpr c.keys_nodup

theorem get_leader_index_lt (c : Committee) (r : Round) :
    r % c.size < (sortedKeys c).length := by
  rw [sortedKeys_length]
  exact Nat.mod_lt _ c.size_pos

/-- C1: for every committee and round, `get_leader` returns the key found at
index `round % committee.size()` of the bytewise-sorted authority keys; hence
the result is a member of the committee, and (purity) two calls with identical
inputs return the identical identity. -/
theorem get_leader_sorted_index_member (c : Committee) (r : Round) :
    List.Sorted (fun a b => a ≤ b) (sortedKeys c) ∧
    List.Perm (sortedKeys c) c.authorities ∧
    (sortedKeys c).get? (r % c.size) = some (get_leader c r) ∧
    get_leader c r ∈ c.authorities ∧
    (∀ r₂ : Round, r₂ = r → get_leader c r₂ = get_leader c r) := by
  refine ⟨List.sorted_insertionSort _ _, sortedKeys_perm c, ?_, ?_, ?_⟩
  · exact List.get?_eq_get (get_leader_index_lt c r)
  · exact (sortedKeys_perm c).mem_iff.mp (List.get_mem _ _ _)
  · intro r₂ h
    rw [h]

theorem get_leader_sorted_index_member_witness :
    get_leader cmte 5 ∈ cmte.authorities ∧
    get_leader cmte 5 = get_leader cmte 5 :=
  ⟨(get_leader_sorted_index_member cmte 5).2.2.2.1,
   (get_leader_sorted_index_member cmte 5).2.2.2.2 5 rfl⟩

/-- C5: `get_leader` has no failure mode: the modulus `committee.size()` is
never zero (so `round % size` cannot fault) and the sorted-key indexing is
always in bounds, so the call always returns a public key. -/
theorem get_leader_no_failure (c : Committee) (r : Round) :
    0 < c.size ∧
    r % c.size < (sortedKeys c).length ∧
    (sortedKeys c).get? (r % c.size) = some (get_leader c r) :=
  ⟨c.size_pos, get_leader_index_lt c r,
   List.get?_eq_get (get_leader_index_lt c r)⟩

theorem get_leader_mod_congr (c : Committee) {r₁ r₂ : Round}
    (h : r₁ % c.size = r₂ % c.size) :
    get_leader c r₁ = get_leader c r₂ := by
  unfold get_leader
  exact congrArg _ (Fin.ext h)

/-- C10: `get_leader` is periodic in the round with period `committee.size()`:
whenever `r + size` stays within the `u64` round type, the leader of round
`r + size` equals the leader of round `r`. -/
theorem get_leader_periodic (c : Committee) (r : Round)
    (_hov : r + c.size < 2 ^ 64) :
    get_leader c (r + c.size) = get_leader c r :=
  get_leader_mod_congr c (Nat.add_mod_right r c.size)

theorem get_leader_periodic_witness :
    5 + cmte.size < 2 ^ 64 ∧
    get_leader cmte (5 + cmte.size) = get_leader cmte 5 :=
  ⟨by decide, get_leader_periodic cmte 5 (by decide)⟩

theorem mod_add_inj {n r i j : Nat} (hi : i < n) (hj : j < n)
    (h : (r + i) % n = (r + j) % n) : i = j := by
  have hm : Nat.ModEq n i j := Nat.ModEq.add_left_cancel' r h
  have hij : i % n = j % n := hm
  rwa [Nat.mod_eq_of_lt hi, Nat.mod_eq_of_lt hj] at hij

theorem get_leader_inj_mod (c : Committee) {r₁ r₂ : Round}
    (h : get_leader c r₁ = get_leader c r₂) :
    r₁ % c.size = r₂ % c.size := by
  unfold get_leader at h
  have hfin := (List.Nodup.get_inj_iff (sortedKeys_nodup c)).mp h
  exact congrArg Fin.val hfin

/-- C2: over `committee.size()` consecutive rounds starting at any round `r`,
the selected leaders are pairwise distinct and form a permutation of the
committee's authorities, i.e. each authority is selected exactly once. -/
theorem get_leader_rotation (c : Committee) (r : Round) :
    ((List.range c.size).map (fun i => get_leader c (r + i))).Nodup ∧
    List.Perm ((List.range c.size).map (fun i => get_leader c (r + i)))
      c.authorities := by
  have hnd : ((List.range c.size).map (fun i => get_leader c (r + i))).Nodup := by
    refine List.Nodup.map_on ?_ (List.nodup_range _)
    intro i hi j hj hfij
    exact mod_add_inj (List.mem_range.mp hi) (List.mem_range.mp hj)
      (get_leader_inj_mod c hfij)
  refine ⟨hnd, ?_⟩
  have hsubset :
      ∀ x ∈ (List.range c.size).map (fun i => get_leader c (r + i)),
        x ∈ sortedKeys c := by
    intro x hx
    obtain ⟨i, _, rfl⟩ := List.mem_map.mp hx
    unfold get_leader
    exact List.get_mem _ _ _
  have hsp :
      List.Subperm ((List.range c.size).map (fun i => get_leader c (r + i)))
        (sortedKeys c) :=
    List.subperm_of_subset hnd hsubset
  have hlen :
      (sortedKeys c).length ≤
        ((List.range c.size).map (fun i => get_leader c (r + i))).length := by
    rw [List.length_map, List.length_range, sortedKeys_length]
  exact (hsp.perm_of_length_le hlen).trans (sortedKeys_perm c)

/-- C4: with a resolvable requester address, a request for digests `d1, d2, d3`
against a store holding `d1` and `d2` but not `d3` makes Helper send exactly
two batch messages — the bytes of `d1` then of `d2`, both to the requester's
worker-to-worker address — and take no action for `d3`, raising no error. -/
theorem helper_two_hits_one_miss (c : Committee) (id : WorkerId)
    (store : StoreFn) (origin : PubKey) (x : WorkerAddresses)
    (d1 d2 d3 : Digest) (b1 b2 : Bytes)
    (hw : c.worker origin id = Except.ok x)
    (h1 : store d1 = Except.ok (some b1))
    (h2 : store d2 = Except.ok (some b2))
    (h3 : store d3 = Except.ok none) :
    helperProcess c id store ([d1, d2, d3], origin) =
      [(x.worker_to_worker, b1), (x.worker_to_worker, b2)] := by
  simp [helperProcess, hw, h1, h2, h3, List.filterMap_cons]

theorem helper_two_hits_one_miss_witness :
    cmte.worker 0 0 = Except.ok ⟨42⟩ ∧
    helperProcess cmte 0
      (fun d => Except.ok
        (if d = 10 then some [1] else if d = 11 then some [2] else none))
      ([10, 11, 12], 0) = [(42, [1]), (42, [2])] :=
  ⟨rfl, helper_two_hits_one_miss cmte 0 _ 0 ⟨42⟩ 10 11 12 [1] [2]
    rfl rfl rfl rfl⟩

/-- C6: a request whose (origin, worker id) pair is absent from the committee
is dropped without sending any network message, and the Helper loop goes on to
process the remaining requests unchanged. -/
theorem helper_unknown_peer_dropped (c : Committee) (id : WorkerId)
    (store : StoreFn) (digests : List Digest) (origin : PubKey)
    (reqs : List (List Digest × PubKey))
    (h : c.worker origin id = Except.error ConfigError.NotInCommittee) :
    helperProcess c id store (digests, origin) = [] ∧
    helperRun c id store ((digests, origin) :: reqs) =
      helperRun c id store reqs := by
  have h0 : helperProcess c id store (digests, origin) = [] := by
    simp [helperProcess, h]
  exact ⟨h0, by simp [helperRun, h0]⟩

theorem helper_unknown_peer_dropped_witness :
    cmte.worker 1 0 = Except.error ConfigError.NotInCommittee ∧
    helperProcess cmte 0 (fun _ => Except.ok none) ([10], 1) = [] ∧
    helperRun cmte 0 (fun _ => Except.ok none) [([10], 1), ([11], 0)] =
      helperRun cmte 0 (fun _ => Except.ok none) [([11], 0)] :=
  ⟨rfl,
   (helper_unknown_peer_dropped cmte 0 _ [10] 1 [([11], 0)] rfl).1,
   (helper_unknown_peer_dropped cmte 0 _ [10] 1 [([11], 0)] rfl).2⟩

/-- C7: a store read error on one digest only skips that digest: the request is
still processed to completion, the messages for the remaining digests are
exactly those of the same request without the failing digest, and no error
escapes the Helper. -/
theorem helper_store_error_skipped (c : Committee) (id : WorkerId)
    (store : StoreFn) (origin : PubKey) (ds₁ ds₂ : List Digest) (d : Digest)
    (e : StoreError) (he : store d = Except.error e) :
    helperProcess c id store (ds₁ ++ d :: ds₂, origin) =
      helperProcess c id store (ds₁ ++ ds₂, origin) := by
  simp only [helperProcess]
  cases c.worker origin id with
  | error err => rfl
  | ok x => simp [List.filterMap_append, List.filterMap_cons, he]

theorem helper_store_error_skipped_witness :
    (if (12 : Digest) = 12 then Except.error StoreError.IoError
     else Except.ok (some ([7] : Bytes))) = Except.error StoreError.IoError ∧
    helperProcess cmte 0
      (fun d => if d = 12 then Except.error StoreError.IoError
                else Except.ok (some [7]))
      ([10] ++ 12 :: [11], 0) =
    helperProcess cmte 0
      (fun d => if d = 12 then Except.error StoreError.IoError
                else Except.ok (some [7]))
      ([10] ++ [11], 0) :=
  ⟨rfl, helper_store_error_skipped cmte 0 _ 0 [10] [11] 12
    StoreError.IoError rfl⟩

/-- C9: with a resolvable requester address, the messages Helper emits for a
request are exactly, in request order, the stored bytes of each requested
digest the store holds, every one sent to the single worker-to-worker address
the committee registers for the requesting authority and this worker's id. -/
theorem helper_sends_stored_in_order (c : Committee) (id : WorkerId)
    (store : StoreFn) (digests : List Digest) (origin : PubKey)
    (x : WorkerAddresses)
    (hw : c.worker origin id = Except.ok x) :
    helperProcess c id store (digests, origin) =
      (digests.filterMap (fun d =>
        match store d with
        | Except.ok (some data) => some data
        | Except.ok none => none
        | Except.error _ => none)).map
        (fun data => (x.worker_to_worker, data)) := by
  simp only [helperProcess, hw, List.map_filterMap]
  apply List.filterMap_congr
  intro d _
  cases hs : store d with
  | error e => rfl
  | ok o => cases o <;> rfl

theorem helper_sends_stored_in_order_witness :
    cmte.worker 0 0 = Except.ok ⟨42⟩ ∧
    helperProcess cmte 0
      (fun d => Except.ok (if d = 11 then some [9] else none)) ([10, 11], 0) =
      (([10, 11].filterMap (fun d =>
        match Except.ok (if d = 11 then some [9] else none) with
        | Except.ok (some data) => some data
        | Except.ok none => none
        | Except.error (_ : StoreError) => none)).map
        (fun data => ((42 : Address), data))) :=
  ⟨rfl, helper_sends_stored_in_order cmte 0 _ [10, 11] 0 ⟨42⟩ rfl⟩

/-- C8: every bounded mpsc channel the node's `run` creates has capacity
exactly 1000 messages (`CHANNEL_CAPACITY`), for both subcommands. -/
theorem node_channels_capacity_1000 (m : NodeSubcommand) (cap : Nat)
    (h : cap ∈ runChannelCapacities m) : cap = 1000 := by
  cases m <;> simp [runChannelCapacities, CHANNEL_CAPACITY] at h <;> omega

theorem node_channels_capacity_1000_witness :
    CHANNEL_CAPACITY ∈ runChannelCapacities NodeSubcommand.primary ∧
    CHANNEL_CAPACITY = 1000 :=
  ⟨by decide,
   node_channels_capacity_1000 NodeSubcommand.primary CHANNEL_CAPACITY
     (by decide)⟩

theorem voteSigs_map_fst (dg : Digest) (ks : List PubKey) :
    (voteSigs dg ks).map Prod.fst = ks := by
  induction ks with
  | nil => rfl
  | cons k ks ih => simp [voteSigs] at ih ⊢; exact ih

theorem voteSigs_length (dg : Digest) (ks : List PubKey) :
    (voteSigs dg ks).length = ks.length := by
  simp [voteSigs]

theorem voteSigs_append (dg : Digest) (ks₁ ks₂ : List PubKey) :
    voteSigs dg (ks₁ ++ ks₂) = voteSigs dg ks₁ ++ voteSigs dg ks₂ := by
  simp [voteSigs]

theorem quorumThreshold_pos (c : Committee) : 0 < quorumThreshold c := by
  unfold quorumThreshold
  omega

theorem getBucket_mkAggState (rd : Round) (dg : Digest)
    (recorded : List PubKey) (q : Nat) :
    getBucket (mkAggState rd dg recorded q) (rd, dg) = voteSigs dg recorded := by
  cases recorded with
  | nil => rfl
  | cons k ks => simp [mkAggState, getBucket, voteSigs]

theorem add_accept_vote_saturated (c : Committee) (rd : Round) (dg : Digest)
    (recorded : List PubKey) (v : PubKey)
    (hv : v ∈ c.authorities)
    (hsat : quorumThreshold c ≤ recorded.length) :
    add_accept_vote c (mkAggState rd dg recorded (quorumThreshold c))
        (AcceptVote.new_from_key dg rd v) =
      (Except.ok none, mkAggState rd dg recorded (quorumThreshold c)) := by
  cases recorded with
  | nil =>
    have := quorumThreshold_pos c
    simp at hsat
    omega
  | cons k ks =>
    simp only [List.length_cons] at hsat
    simp [add_accept_vote, AcceptVote.new_from_key, voteVerify, hv, mkAggState,
      hsat, voteSigs]

theorem voteSigs_any_author_eq_false (dg : Digest) (ks : List PubKey)
    (v : PubKey) (h : v ∉ ks) :
    ((voteSigs dg ks).any fun p => decide (p.1 = v)) = false := by
  rw [List.any_eq_false]
  intro p hp
  simp only [voteSigs, List.mem_map] at hp
  obtain ⟨k, hk, rfl⟩ := hp
  simp only [decide_eq_true_eq]
  intro hkv
  exact h (hkv ▸ hk)

theorem add_accept_vote_below (c : Committee) (rd : Round) (dg : Digest)
    (recorded : List PubKey) (v : PubKey)
    (hv : v ∈ c.authorities) (hnotin : v ∉ recorded)
    (hlt : recorded.length < quorumThreshold c) :
    add_accept_vote c (mkAggState rd dg recorded (quorumThreshold c))
        (AcceptVote.new_from_key dg rd v) =
      ((if recorded.length + 1 = quorumThreshold c
        then Except.ok (some ⟨dg, rd, voteSigs dg (recorded ++ [v])⟩)
        else Except.ok none),
       mkAggState rd dg (recorded ++ [v]) (quorumThreshold c)) := by
  have hany := voteSigs_any_author_eq_false dg recorded v hnotin
  by_cases hqe : recorded.length + 1 = quorumThreshold c
  · have hble : quorumThreshold c ≤ recorded.length + 1 := by omega
    cases recorded with
    | nil =>
      simp only [List.length_nil] at hqe hble
      have hq0 : ¬ quorumThreshold c = 0 := by omega
      simp [add_accept_vote, AcceptVote.new_from_key, voteVerify, hv,
        mkAggState, getBucket, setBucket, voteSigs, hqe, hble, hq0]
    | cons k ks =>
      have hkv : ¬(k = v ∨ v ∈ ks) := by
        simp only [List.mem_cons, not_or] at hnotin
        exact fun h => h.elim (fun h1 => hnotin.1 h1.symm) hnotin.2
      simp only [List.length_cons] at hqe hble hlt
      have hnp : ¬ (quorumThreshold c ≤ ks.length + 1) := by omega
      simp [add_accept_vote, AcceptVote.new_from_key, voteVerify, hv,
        mkAggState, getBucket, setBucket, hany, hkv, hqe, hble, hnp,
        voteSigs_append, voteSigs_length, voteSigs]
  · have hnble : ¬ (quorumThreshold c ≤ recorded.length + 1) := by omega
    cases recorded with
    | nil =>
      simp only [List.length_nil] at hqe hnble
      have hq0 : ¬ quorumThreshold c = 0 := by
        have := quorumThreshold_pos c
        omega
      simp [add_accept_vote, AcceptVote.new_from_key, voteVerify, hv,
        mkAggState, getBucket, setBucket, voteSigs, hqe, hnble, hq0]
    | cons k ks =>
      have hkv : ¬(k = v ∨ v ∈ ks) := by
        simp only [List.mem_cons, not_or] at hnotin
        exact fun h => h.elim (fun h1 => hnotin.1 h1.symm) hnotin.2
      simp only [List.length_cons] at hqe hnble hlt
      have hnp : ¬ (quorumThreshold c ≤ ks.length + 1) := by omega
      simp [add_accept_vote, AcceptVote.new_from_key, voteVerify, hv,
        mkAggState, getBucket, setBucket, hany, hkv, hqe, hnble, hnp,
        voteSigs_append, voteSigs_length, voteSigs]

theorem add_votes_mkAggState (c : Committee) (rd : Round) (dg : Digest)
    (rest : List PubKey) :
    ∀ recorded : List PubKey,
    (recorded ++ rest).Nodup →
    (∀ k ∈ rest, k ∈ c.authorities) →
    recorded.length ≤ quorumThreshold c →
    (add_votes c (mkAggState rd dg recorded (quorumThreshold c))
        (rest.map (AcceptVote.new_from_key dg rd))).1 =
      (List.range rest.length).map (fun i =>
        if recorded.length + (i + 1) = quorumThreshold c
        then Except.ok (some ⟨dg, rd,
          voteSigs dg (recorded ++ rest.take (i + 1))⟩)
        else Except.ok none) := by
  induction rest with
  | nil =>
    intro recorded _ _ _
    simp [add_votes]
  | cons v rest ih =>
    intro recorded hnd hsub hle
    have hv : v ∈ c.authorities := hsub v (List.mem_cons_self _ _)
    have hsub' : ∀ k ∈ rest, k ∈ c.authorities :=
      fun k hk => hsub k (List.mem_cons_of_mem _ hk)
    have hnotin : v ∉ recorded := by
      intro hvr
      exact (List.disjoint_of_nodup_append hnd) hvr (List.mem_cons_self _ _)
    simp only [List.map_cons, add_votes]
    rcases Nat.lt_or_ge recorded.length (quorumThreshold c) with hlt | hge
    · rw [add_accept_vote_below c rd dg recorded v hv hnotin hlt]
      have hnd' : ((recorded ++ [v]) ++ rest).Nodup := by
        rw [List.append_assoc]
        simpa using hnd
      have hle' : (recorded ++ [v]).length ≤ quorumThreshold c := by
        simp only [List.length_append, List.length_cons, List.length_nil]
        omega
      simp only [ih (recorded ++ [v]) hnd' hsub' hle']
      simp only [List.length_cons]
      rw [List.range_succ_eq_map, List.map_cons, List.map_map]
      congr 1
      case e_tail =>
        refine List.map_congr_left fun i hi => ?_
        simp only [Function.comp_apply, List.length_append, List.length_cons,
          List.length_nil, List.take_succ_cons, List.append_assoc,
          List.singleton_append]
        exact if_congr (by omega) rfl rfl
    · have hsat : quorumThreshold c ≤ recorded.length := hge
      rw [add_accept_vote_saturated c rd dg recorded v hv hsat]
      have hnd' : (recorded ++ rest).Nodup :=
        List.Nodup.sublist
          (List.Sublist.append_left (List.sublist_cons_self v rest) recorded) hnd
      simp only [ih recorded hnd' hsub' hle]
      simp only [List.length_cons]
      rw [List.range_succ_eq_map, List.map_cons, List.map_map]
      congr 1
      case e_head => rw [if_neg (by omega)]
      case e_tail =>
        refine List.map_congr_left fun i hi => ?_
        simp only [Function.comp_apply]
        rw [if_neg (by omega), if_neg (by omega)]

theorem mkAggState_nil (rd : Round) (dg : Digest) (c : Committee) :
    mkAggState rd dg [] (quorumThreshold c) = Aggregator.empty := by
  have h := quorumThreshold_pos c
  unfold mkAggState Aggregator.empty
  simp only [List.isEmpty_nil, List.length_nil, if_true]
  rw [if_neg (by omega)]

/-- C3: feeding the aggregator distinct, signature-valid votes of committee
members for one (round, digest): the call results are exactly `Ok(None)` for
every vote except the `2f+1`-th, which returns `Ok(Some(certificate))`; hence
a certificate is produced iff at least `2f+1` such votes are recorded (in
particular, after exactly `2f` votes none is), and every certificate returned
verifies against the committee. -/
theorem aggregator_quorum (c : Committee) (rd : Round) (dg : Digest)
    (voters : List PubKey) (hnd : voters.Nodup)
    (hsub : ∀ k ∈ voters, k ∈ c.authorities) :
    ((add_votes c Aggregator.empty
        (voters.map (AcceptVote.new_from_key dg rd))).1 =
      (List.range voters.length).map (fun i =>
        if i + 1 = quorumThreshold c
        then Except.ok (some ⟨dg, rd, voteSigs dg (voters.take (i + 1))⟩)
        else Except.ok none)) ∧
    ((∃ o ∈ (add_votes c Aggregator.empty
          (voters.map (AcceptVote.new_from_key dg rd))).1,
        ∃ cert, o = Except.ok (some cert)) ↔
      quorumThreshold c ≤ voters.length) ∧
    (∀ cert : Certificate,
      Except.ok (some cert) ∈ (add_votes c Aggregator.empty
          (voters.map (AcceptVote.new_from_key dg rd))).1 →
      cert.verify c = true) := by
  have hrun := add_votes_mkAggState c rd dg voters [] (by simpa using hnd)
    hsub (by simp)
  rw [mkAggState_nil rd dg c] at hrun
  simp only [List.length_nil, Nat.zero_add, List.nil_append] at hrun
  refine ⟨hrun, ?_, ?_⟩
  · constructor
    · rintro ⟨o, ho, cert, rfl⟩
      rw [hrun] at ho
      simp only [List.mem_map, List.mem_range] at ho
      obtain ⟨i, hi, hoe⟩ := ho
      by_cases hc : i + 1 = quorumThreshold c
      · omega
      · rw [if_neg hc] at hoe
        simp at hoe
    · intro hq
      have hqpos := quorumThreshold_pos c
      refine ⟨Except.ok (some ⟨dg, rd,
        voteSigs dg (voters.take (quorumThreshold c))⟩), ?_, _, rfl⟩
      rw [hrun]
      simp only [List.mem_map, List.mem_range]
      refine ⟨quorumThreshold c - 1, by omega, ?_⟩
      rw [if_pos (by omega)]
      have he : quorumThreshold c - 1 + 1 = quorumThreshold c := by omega
      rw [he]
  · intro cert hmem
    rw [hrun] at hmem
    simp only [List.mem_map, List.mem_range] at hmem
    obtain ⟨i, hi, hoe⟩ := hmem
    by_cases hc : i + 1 = quorumThreshold c
    · rw [if_pos hc] at hoe
      simp only [Except.ok.injEq, Option.some.injEq] at hoe
      subst hoe
      unfold Certificate.verify
      simp only [Bool.and_eq_true, decide_eq_true_eq, List.all_eq_true]
      refine ⟨⟨?_, ?_⟩, ?_⟩
      · rw [voteSigs_map_fst]
        exact List.Nodup.sublist (List.take_sublist _ _) hnd
      · intro p hp
        simp only [voteSigs, List.mem_map] at hp
        obtain ⟨k, hk, rfl⟩ := hp
        exact ⟨hsub k (List.mem_of_mem_take hk), rfl⟩
      · rw [voteSigs_length, List.length_take]
        omega
    · rw [if_neg hc] at hoe
      simp at hoe

theorem aggregator_quorum_witness :
    ([0, 1, 2] : List PubKey).Nodup ∧
    (∀ k ∈ ([0, 1, 2] : List PubKey), k ∈ cmte.authorities) ∧
    ((add_votes cmte Aggregator.empty
        ([0, 1, 2].map (AcceptVote.new_from_key 2 1))).1 =
      (List.range ([0, 1, 2] : List PubKey).length).map (fun i =>
        if i + 1 = quorumThreshold cmte
        then Except.ok (some ⟨2, 1, voteSigs 2 ([0, 1, 2].take (i + 1))⟩)
        else Except.ok none)) :=
  ⟨by decide, by decide,
   (aggregator_quorum cmte 1 2 [0, 1, 2] (by decide) (by decide)).1⟩
